import Mathlib

/-!
Verification of the incremental analysis loader of rls-analysis (`src/raw.rs`).

The Rust source is shallowly embedded below:
* `SystemTime` becomes `Time := Nat` (only its total order is used);
* `PathBuf` becomes `PathBuf := List String` (`PathBuf::push` appends a component);
* `HashMap<PathBuf, Option<SystemTime>>` becomes an association list with
  first-match lookup `tsGet`, mirroring `HashMap::get`;
* a Rust panic (an `unwrap` on a failed read, or the explicit panic in
  `DefKind::name_space`) becomes the `Except.error` constructor of `Except Panicked`,
  which aborts the whole enclosing computation, exactly as a panic unwinds;
* the external capabilities the loader consumes (the `AnalysisLoader::iter_paths`
  root enumerator, `DirectoryListing::from_path`, `File::open`/`read_to_string`,
  `json::decode`) are parameters of the model, specified at their boundary.
-/

set_option autoImplicit false

deriving instance DecidableEq for Except

namespace Raw

/-- Modification times: `std::time::SystemTime`, modelled by naturals (only the
order on times is ever used by the code). -/
abbrev Time := Nat

/-- File paths: `std::path::PathBuf`, modelled as a list of components. -/
abbrev PathBuf := List String

/-- PathBuf::push appends one component to a path. -/
def pushPath (p : PathBuf) (name : String) : PathBuf := p ++ [name]

/-- Format tag of an analysis artifact (enum `Format` in raw.rs). -/
inductive Format where
  | Csv
  | Json
  | JsonApi
deriving DecidableEq

/-- Compiler-assigned identity pair (struct `CompilerId` in raw.rs). -/
structure CompilerId where
  krate : Nat
  index : Nat
deriving DecidableEq

/-- Source span (struct `SpanData` in raw.rs). -/
structure SpanData where
  file_name : PathBuf
  byte_start : Nat
  byte_end : Nat
  line_start : Nat
  line_end : Nat
  column_start : Nat
  column_end : Nat
deriving DecidableEq

/-- Struct `ExternalCrateData` in raw.rs. -/
structure ExternalCrateData where
  name : String
  num : Nat
  file_name : String
deriving DecidableEq

/-- Struct `CratePreludeData` in raw.rs. -/
structure CratePreludeData where
  crate_name : String
  crate_root : String
  external_crates : List ExternalCrateData
  span : SpanData
deriving DecidableEq

/-- Definition kinds (enum `DefKind` in raw.rs). The source constructor `Type`
is spelled `TypeAlias` here because `Type` is a Lean keyword; it is the
type-alias kind. -/
inductive DefKind where
  | Enum
  | Tuple
  | Struct
  | Trait
  | Function
  | Method
  | Macro
  | Mod
  | TypeAlias
  | Local
  | Static
  | Const
  | Field
  | Import
deriving DecidableEq

/-- Struct `SigElement` in raw.rs; the source field `end` is spelled `stop`
because `end` is a Lean keyword. -/
structure SigElement where
  id : CompilerId
  start : Nat
  stop : Nat
deriving DecidableEq

/-- Struct `Signature` in raw.rs. -/
structure Signature where
  span : SpanData
  text : String
  ident_start : Nat
  ident_end : Nat
  defs : List SigElement
  refs : List SigElement
deriving DecidableEq

/-- Struct `Def` in raw.rs. -/
structure Def where
  kind : DefKind
  id : CompilerId
  span : SpanData
  name : String
  qualname : String
  parent : Option CompilerId
  children : Option (List CompilerId)
  value : String
  docs : String
  sig : Option Signature
deriving DecidableEq

/-- Reference kinds (enum `RefKind` in raw.rs); the source constructor `Type`
is spelled `TypeRef` because `Type` is a Lean keyword. -/
inductive RefKind where
  | Function
  | Mod
  | TypeRef
  | Variable
deriving DecidableEq

/-- Struct `Ref` in raw.rs. -/
structure Ref where
  kind : RefKind
  span : SpanData
  ref_id : CompilerId
deriving DecidableEq

/-- Struct `MacroRef` in raw.rs. -/
structure MacroRef where
  span : SpanData
  qualname : String
  callee_span : SpanData
deriving DecidableEq

/-- Import kinds (enum `ImportKind` in raw.rs). -/
inductive ImportKind where
  | ExternCrate
  | Use
  | GlobUse
deriving DecidableEq

/-- Struct `Import` in raw.rs. -/
structure Import where
  kind : ImportKind
  ref_id : Option CompilerId
  span : SpanData
  name : String
  value : String
deriving DecidableEq

/-- The decoded analysis record (struct `Analysis` in raw.rs). -/
structure Analysis where
  kind : Format
  prelude : Option CratePreludeData
  imports : List Import
  defs : List Def
  refs : List Ref
  macro_refs : List MacroRef
deriving DecidableEq

/-- One loaded compilation unit (struct `Crate` in raw.rs). -/
structure Crate where
  analysis : Analysis
  timestamp : Time
  path : PathBuf
deriving DecidableEq

/-- Constructor `Crate::new` in raw.rs. -/
def Crate.new (analysis : Analysis) (timestamp : Time) (path : PathBuf) : Crate :=
  { analysis := analysis, timestamp := timestamp, path := path }

/-- A Rust panic: `unwrapFailed` models the `unwrap()` calls in
`read_crate_data`, `noNamespaceForImports` the explicit panic in
`DefKind::name_space`. -/
inductive Panicked where
  | unwrapFailed
  | noNamespaceForImports
deriving DecidableEq

/-- Modelled from the spec: an entry of a directory listing, as produced by the
external directory-listing capability (module `listings`, not a source file of
this verification scope): each entry carries a name and is tagged either as a
file with its modification time (`ListingKind::File(SystemTime)`) or as some
other kind of entry, which the loader ignores. -/
inductive ListingKind where
  | file (time : Time)
  | other
deriving DecidableEq

/-- Modelled from the spec: one listing entry (name plus kind); the loader
reads `l.name` and `l.kind` from it. -/
structure Listing where
  name : String
  kind : ListingKind
deriving DecidableEq

/-- The external capabilities consumed by the loader, specified at their
boundary: `listing p` is `DirectoryListing::from_path(p).files` (an error means
the listing failed); `readFile p` is `File::open(p)` followed by
`read_to_string` (an error means the read failed, which the code unwraps);
`decode buf` is `json::decode(&buf).ok()`. -/
structure FileSystem where
  listing : PathBuf → Except Unit (List Listing)
  readFile : PathBuf → Except Unit String
  decode : String → Option Analysis

/-- The caller-supplied `HashMap<PathBuf, Option<SystemTime>>` snapshot,
modelled as an association list. -/
abbrev TimestampMap := List (PathBuf × Option Time)

/-- `HashMap::get`: first-match lookup in the snapshot. `none` is a path never
seen; `some none` is the never-refresh state; `some (some t)` is a known
timestamp. -/
def tsGet (m : TimestampMap) (p : PathBuf) : Option (Option Time) :=
  match m with
  | [] => none
  | (q, v) :: rest => if q = p then some v else tsGet rest p

/-- `Analysis::read_crate_data`: open the file and read it to a string (both
unwrapped, so a failed read panics), then `json::decode(&buf).ok()`. -/
def read_crate_data (fs : FileSystem) (path : PathBuf) : Except Panicked (Option Analysis) :=
  match fs.readFile path with
  | .error _ => .error .unwrapFailed
  | .ok buf => .ok (fs.decode buf)

/-- The body of the `for l in listing.files` loop of `read_incremental`, for a
single listing entry `l` under root `p`: non-file entries are skipped; for a
file entry the resolved path is looked up in the snapshot and the tri-state
policy decides whether `read_crate_data` is invoked; on decode success a
`Crate` is appended (`Option::map` makes a decode failure a silent skip). -/
def load_entry (fs : FileSystem) (timestamps : TimestampMap) (p : PathBuf)
    (l : Listing) : Except Panicked (List Crate) :=
  match l.kind with
  | .file time =>
    let path := pushPath p l.name
    match tsGet timestamps path with
    | some (some t) =>
      if t < time then
        match read_crate_data fs path with
        | .error e => .error e
        | .ok (some a) => .ok [Crate.new a time path]
        | .ok none => .ok []
      else
        .ok []
    | some none => .ok []
    | none =>
      match read_crate_data fs path with
      | .error e => .error e
      | .ok (some a) => .ok [Crate.new a time path]
      | .ok none => .ok []
  | .other => .ok []

/-- The `for` loop of `read_incremental` over the files of one listing: entries
are processed in order, each appending its crates to `result`; a panic aborts
the loop. -/
def load_files (fs : FileSystem) (timestamps : TimestampMap) (p : PathBuf) :
    List Listing → Except Panicked (List Crate)
  | [] => .ok []
  | l :: ls =>
    match load_entry fs timestamps p l with
    | .error e => .error e
    | .ok cs =>
      match load_files fs timestamps p ls with
      | .error e => .error e
      | .ok rest => .ok (cs ++ rest)

/-- The per-root closure passed to `iter_paths` by `read_incremental`: obtain
the directory listing for the root (on failure return the empty result), then
run the file loop. -/
def load_root (fs : FileSystem) (timestamps : TimestampMap) (p : PathBuf) :
    Except Panicked (List Crate) :=
  match fs.listing p with
  | .error _ => .ok []
  | .ok listing => load_files fs timestamps p listing

/-- Modelled from the spec: `AnalysisLoader::iter_paths` (the injected root
enumerator, not a source file of this verification scope) invokes the visitor
once per root and returns the concatenation of all visitor results; a panic in
a visitor aborts the enumeration. -/
def iter_paths (visit : PathBuf → Except Panicked (List Crate)) :
    List PathBuf → Except Panicked (List Crate)
  | [] => .ok []
  | p :: ps =>
    match visit p with
    | .error e => .error e
    | .ok cs =>
      match iter_paths visit ps with
      | .error e => .error e
      | .ok rest => .ok (cs ++ rest)

/-- `Analysis::read_incremental`: iterate the loader's root paths, applying the
per-root closure to each. -/
def Analysis.read_incremental (fs : FileSystem) (roots : List PathBuf)
    (timestamps : TimestampMap) : Except Panicked (List Crate) :=
  iter_paths (fun p => load_root fs timestamps p) roots

/-- `Analysis::read`: `read_incremental` with a freshly created (empty)
timestamp map. -/
def Analysis.read (fs : FileSystem) (roots : List PathBuf) : Except Panicked (List Crate) :=
  Analysis.read_incremental fs roots []

/-- `DefKind::name_space`: the namespace character of a definition kind; on
`Import` the source panics (modelled by `Except.error`). -/
def name_space (k : DefKind) : Except Panicked Char :=
  match k with
  | .Enum | .Tuple | .Struct | .TypeAlias | .Trait => .ok 't'
  | .Function | .Method | .Mod | .Local | .Static | .Const | .Field => .ok 'v'
  | .Macro => .ok 'm'
  | .Import => .error .noNamespaceForImports

/-! Derived notions used only to state and prove properties of the loader. -/

/-- The tri-state freshness policy of `read_incremental` as a predicate: given
the snapshot, a resolved path and its observed modification time, does the
loader invoke `read_crate_data`? Reads the snapshot exactly as the source
`match timestamps.get(&path)` does. -/
def should_load (timestamps : TimestampMap) (path : PathBuf) (time : Time) : Bool :=
  match tsGet timestamps path with
  | some (some t) => decide (t < time)
  | some none => false
  | none => true

/-- What a (non-panicking) read-and-decode of `p` yields: the decoded record
when the file is readable and its bytes decode, `none` otherwise. -/
def decodeAt (fs : FileSystem) (p : PathBuf) : Option Analysis :=
  match fs.readFile p with
  | .ok buf => fs.decode buf
  | .error _ => none

/-- The observed times contributed by one listing entry `l` under root `root`
to the occurrences of path `p`. -/
def occ_entry (root p : PathBuf) (l : Listing) : List Time :=
  match l.kind with
  | .file t => if pushPath root l.name = p then [t] else []
  | .other => []

/-- The observed times of the file entries of one listing that resolve to `p`. -/
def occ_files (root p : PathBuf) : List Listing → List Time
  | [] => []
  | l :: ls => occ_entry root p l ++ occ_files root p ls

/-- The observed times of the file entries under one root that resolve to `p`
(empty when the listing fails). -/
def occ_root (fs : FileSystem) (p root : PathBuf) : List Time :=
  match fs.listing root with
  | .error _ => []
  | .ok files => occ_files root p files

/-- All observed times of file entries resolving to `p`, across the roots. -/
def occurrences (fs : FileSystem) (roots : List PathBuf) (p : PathBuf) : List Time :=
  match roots with
  | [] => []
  | r :: rs => occ_root fs p r ++ occurrences fs rs p

/-- The crates a non-panicking run produces for path `p`, one per occurrence
that the freshness policy loads and that decodes successfully. -/
def expected_at (fs : FileSystem) (timestamps : TimestampMap) (roots : List PathBuf)
    (p : PathBuf) : List Crate :=
  (occurrences fs roots p).filterMap (fun t =>
    if should_load timestamps p t then
      (decodeAt fs p).map (fun a => Crate.new a t p)
    else none)

/-- The crates one listing entry contributes when it does not panic. -/
def entry_result (fs : FileSystem) (timestamps : TimestampMap) (root : PathBuf)
    (l : Listing) : List Crate :=
  match l.kind with
  | .file t =>
    if should_load timestamps (pushPath root l.name) t then
      match decodeAt fs (pushPath root l.name) with
      | some a => [Crate.new a t (pushPath root l.name)]
      | none => []
    else []
  | .other => []

/-- Every read the loader would perform under this snapshot succeeds: each file
entry of each successful listing whose resolved path the policy loads is
readable. -/
def reads_ok (fs : FileSystem) (timestamps : TimestampMap) (roots : List PathBuf) : Prop :=
  ∀ p ∈ roots, ∀ files, fs.listing p = .ok files →
    ∀ l ∈ files, ∀ t, l.kind = .file t →
      should_load timestamps (pushPath p l.name) t = true →
      ∃ buf, fs.readFile (pushPath p l.name) = .ok buf

/-! Concrete fixtures used by the witness theorems. -/

/-- A concrete decoded record. -/
def A0 : Analysis :=
  { kind := .Json, prelude := none, imports := [], defs := [], refs := [], macro_refs := [] }

/-- A concrete filesystem: root `r1` lists a decodable artifact `a` (mtime 10),
an undecodable artifact `b` (mtime 10) and a non-file entry `c`; root `r2`
lists a decodable artifact `a` (mtime 7); root `r3` lists an artifact `x`
(mtime 3) whose file is unreadable; every other root fails to list. -/
def fsW : FileSystem where
  listing r :=
    if r = ["r1"] then
      .ok [{ name := "a", kind := .file 10 },
           { name := "b", kind := .file 10 },
           { name := "c", kind := .other }]
    else if r = ["r2"] then
      .ok [{ name := "a", kind := .file 7 }]
    else if r = ["r3"] then
      .ok [{ name := "x", kind := .file 3 }]
    else .error ()
  readFile p :=
    if p = ["r1", "a"] then .ok "good"
    else if p = ["r1", "b"] then .ok "bad"
    else if p = ["r2", "a"] then .ok "good"
    else .error ()
  decode s := if s = "good" then some A0 else none

/-! A second loader definition written from the spec's words, for the
refinement claim about `Analysis::read`: with an empty snapshot every file
entry is in the never-seen state, so every artifact is loaded unconditionally
(decoded; each successful decode yields its unit). -/

/-- Spec-side unconditional load of one listing entry: every file entry is
decoded, with no freshness check. -/
def read_spec_entry (fs : FileSystem) (root : PathBuf) (l : Listing) :
    Except Panicked (List Crate) :=
  match l.kind with
  | .file time =>
    match read_crate_data fs (pushPath root l.name) with
    | .error e => .error e
    | .ok (some a) => .ok [Crate.new a time (pushPath root l.name)]
    | .ok none => .ok []
  | .other => .ok []

/-- Spec-side unconditional load of a listing. -/
def read_spec_files (fs : FileSystem) (root : PathBuf) :
    List Listing → Except Panicked (List Crate)
  | [] => .ok []
  | l :: ls =>
    match read_spec_entry fs root l with
    | .error e => .error e
    | .ok cs =>
      match read_spec_files fs root ls with
      | .error e => .error e
      | .ok rest => .ok (cs ++ rest)

/-- Spec-side unconditional load of one root (a failed listing contributes
nothing). -/
def read_spec_root (fs : FileSystem) (root : PathBuf) : Except Panicked (List Crate) :=
  match fs.listing root with
  | .error _ => .ok []
  | .ok files => read_spec_files fs root files

/-- Spec-side description of `Analysis::read`: load every decodable artifact
in every root. -/
def read_spec (fs : FileSystem) : List PathBuf → Except Panicked (List Crate)
  | [] => .ok []
  | r :: rs =>
    match read_spec_root fs r with
    | .error e => .error e
    | .ok cs =>
      match read_spec fs rs with
      | .error e => .error e
      | .ok rest => .ok (cs ++ rest)

/-! Helper lemmas about the loader. -/

theorem load_entry_ok_eq (fs : FileSystem) (ts : TimestampMap) (root : PathBuf)
    (l : Listing) (e : List Crate) (h : load_entry fs ts root l = .ok e) :
    e = entry_result fs ts root l := by
  rcases l with ⟨name, kind⟩
  cases kind with
  | other =>
    simp [load_entry] at h
    simp [entry_result, ← h]
  | file t =>
    cases hts : tsGet ts (pushPath root name) with
    | none =>
      cases hrf : fs.readFile (pushPath root name) with
      | error err =>
        simp [load_entry, hts, read_crate_data, hrf] at h
      | ok buf =>
        cases hd : fs.decode buf with
        | none =>
          simp [load_entry, hts, read_crate_data, hrf, hd] at h
          simp [entry_result, should_load, hts, decodeAt, hrf, hd, ← h]
        | some a =>
          simp [load_entry, hts, read_crate_data, hrf, hd] at h
          simp [entry_result, should_load, hts, decodeAt, hrf, hd, ← h]
    | some o =>
      cases o with
      | none =>
        simp [load_entry, hts] at h
        simp [entry_result, should_load, hts, ← h]
      | some T =>
        by_cases hlt : T < t
        · cases hrf : fs.readFile (pushPath root name) with
          | error err =>
            simp [load_entry, hts, hlt, read_crate_data, hrf] at h
          | ok buf =>
            cases hd : fs.decode buf with
            | none =>
              simp [load_entry, hts, hlt, read_crate_data, hrf, hd] at h
              simp [entry_result, should_load, hts, hlt, decodeAt, hrf, hd, ← h]
            | some a =>
              simp [load_entry, hts, hlt, read_crate_data, hrf, hd] at h
              simp [entry_result, should_load, hts, hlt, decodeAt, hrf, hd, ← h]
        · simp [load_entry, hts, hlt] at h
          simp [entry_result, should_load, hts, hlt, ← h]

theorem load_entry_reads (fs : FileSystem) (ts : TimestampMap) (root : PathBuf)
    (l : Listing) (e : List Crate) (h : load_entry fs ts root l = .ok e) :
    ∀ t, l.kind = .file t → should_load ts (pushPath root l.name) t = true →
      ∃ buf, fs.readFile (pushPath root l.name) = .ok buf := by
  rcases l with ⟨name, kind⟩
  intro t hk hsl
  cases hk
  cases hrf : fs.readFile (pushPath root name) with
  | ok buf => exact ⟨buf, rfl⟩
  | error err =>
    exfalso
    cases hts : tsGet ts (pushPath root name) with
    | none =>
      simp [load_entry, hts, read_crate_data, hrf] at h
    | some o =>
      cases o with
      | none => simp [should_load, hts] at hsl
      | some T =>
        have hlt : T < t := by simpa [should_load, hts] using hsl
        simp [load_entry, hts, hlt, read_crate_data, hrf] at h

theorem load_entry_ok_of_reads (fs : FileSystem) (ts : TimestampMap) (root : PathBuf)
    (l : Listing)
    (h : ∀ t, l.kind = .file t → should_load ts (pushPath root l.name) t = true →
      ∃ buf, fs.readFile (pushPath root l.name) = .ok buf) :
    load_entry fs ts root l = .ok (entry_result fs ts root l) := by
  rcases l with ⟨name, kind⟩
  cases kind with
  | other => simp [load_entry, entry_result]
  | file t =>
    cases hts : tsGet ts (pushPath root name) with
    | none =>
      obtain ⟨buf, hrf⟩ := h t rfl (by simp [should_load, hts])
      cases hd : fs.decode buf with
      | none =>
        simp [load_entry, hts, read_crate_data, hrf, hd, entry_result, should_load, decodeAt]
      | some a =>
        simp [load_entry, hts, read_crate_data, hrf, hd, entry_result, should_load, decodeAt]
    | some o =>
      cases o with
      | none => simp [load_entry, hts, entry_result, should_load]
      | some T =>
        by_cases hlt : T < t
        · obtain ⟨buf, hrf⟩ := h t rfl (by simp [should_load, hts, hlt])
          cases hd : fs.decode buf with
          | none =>
            simp [load_entry, hts, hlt, read_crate_data, hrf, hd, entry_result, should_load,
              decodeAt]
          | some a =>
            simp [load_entry, hts, hlt, read_crate_data, hrf, hd, entry_result, should_load,
              decodeAt]
        · simp [load_entry, hts, hlt, entry_result, should_load]

theorem filter_entry_result (fs : FileSystem) (ts : TimestampMap) (root : PathBuf)
    (l : Listing) (p : PathBuf) :
    (entry_result fs ts root l).filter (fun c => decide (c.path = p)) =
    (occ_entry root p l).filterMap (fun t =>
      if should_load ts p t then (decodeAt fs p).map (fun a => Crate.new a t p)
      else none) := by
  rcases l with ⟨name, kind⟩
  cases kind with
  | other => simp [entry_result, occ_entry]
  | file t =>
    by_cases hp : pushPath root name = p
    · subst hp
      simp only [entry_result, occ_entry]
      by_cases hsl : should_load ts (pushPath root name) t
      · cases hd : decodeAt fs (pushPath root name) with
        | none => simp [hsl, hd]
        | some a => simp [hsl, hd, Crate.new]
      · simp [hsl]
    · simp only [entry_result, occ_entry]
      by_cases hsl : should_load ts (pushPath root name) t
      · cases hd : decodeAt fs (pushPath root name) with
        | none => simp [hsl, hd, hp]
        | some a => simp [hsl, hd, hp, Crate.new]
      · simp [hsl, hp]

theorem load_files_ok_filter (fs : FileSystem) (ts : TimestampMap) (root : PathBuf)
    (files : List Listing) (e : List Crate) (p : PathBuf)
    (h : load_files fs ts root files = .ok e) :
    e.filter (fun c => decide (c.path = p)) =
    (occ_files root p files).filterMap (fun t =>
      if should_load ts p t then (decodeAt fs p).map (fun a => Crate.new a t p)
      else none) := by
  induction files generalizing e with
  | nil =>
    simp [load_files] at h
    subst h
    simp [occ_files]
  | cons l ls ih =>
    rw [load_files] at h
    cases h1 : load_entry fs ts root l with
    | error err => rw [h1] at h; exact absurd h (by simp)
    | ok cs =>
      rw [h1] at h
      cases h2 : load_files fs ts root ls with
      | error err => rw [h2] at h; exact absurd h (by simp)
      | ok rest =>
        rw [h2] at h
        have he : e = cs ++ rest := by
          cases h; rfl
        subst he
        rw [List.filter_append, occ_files, List.filterMap_append]
        rw [load_entry_ok_eq fs ts root l cs h1, filter_entry_result, ih rest h2]

theorem load_root_ok_filter (fs : FileSystem) (ts : TimestampMap) (root : PathBuf)
    (e : List Crate) (p : PathBuf) (h : load_root fs ts root = .ok e) :
    e.filter (fun c => decide (c.path = p)) =
    (occ_root fs p root).filterMap (fun t =>
      if should_load ts p t then (decodeAt fs p).map (fun a => Crate.new a t p)
      else none) := by
  rw [load_root] at h
  cases hl : fs.listing root with
  | error err =>
    rw [hl] at h
    have he : e = [] := by cases h; rfl
    subst he
    simp [occ_root, hl]
  | ok files =>
    rw [hl] at h
    rw [occ_root, hl]
    exact load_files_ok_filter fs ts root files e p h

theorem read_incremental_ok_filter (fs : FileSystem) (roots : List PathBuf)
    (ts : TimestampMap) (cs : List Crate) (p : PathBuf)
    (h : Analysis.read_incremental fs roots ts = .ok cs) :
    cs.filter (fun c => decide (c.path = p)) = expected_at fs ts roots p := by
  induction roots generalizing cs with
  | nil =>
    simp [Analysis.read_incremental, iter_paths] at h
    subst h
    simp [expected_at, occurrences]
  | cons r rs ih =>
    rw [Analysis.read_incremental, iter_paths] at h
    cases h1 : load_root fs ts r with
    | error err => rw [h1] at h; exact absurd h (by simp)
    | ok e1 =>
      rw [h1] at h
      cases h2 : iter_paths (fun q => load_root fs ts q) rs with
      | error err => rw [h2] at h; exact absurd h (by simp)
      | ok e2 =>
        rw [h2] at h
        have he : cs = e1 ++ e2 := by cases h; rfl
        subst he
        rw [List.filter_append, expected_at, occurrences, List.filterMap_append]
        rw [load_root_ok_filter fs ts r e1 p h1]
        have := ih e2 h2
        rw [expected_at] at this
        rw [this]

theorem mem_read_incremental_ok (fs : FileSystem) (roots : List PathBuf)
    (ts : TimestampMap) (cs : List Crate) (c : Crate)
    (h : Analysis.read_incremental fs roots ts = .ok cs) (hc : c ∈ cs) :
    c.timestamp ∈ occurrences fs roots c.path ∧
    should_load ts c.path c.timestamp = true ∧
    decodeAt fs c.path = some c.analysis := by
  have hf : c ∈ cs.filter (fun x => decide (x.path = c.path)) := by
    simp [List.mem_filter, hc]
  rw [read_incremental_ok_filter fs roots ts cs c.path h, expected_at] at hf
  rcases List.mem_filterMap.mp hf with ⟨t, ht, hsome⟩
  by_cases hsl : should_load ts c.path t
  · rw [if_pos hsl] at hsome
    cases hd : decodeAt fs c.path with
    | none => rw [hd] at hsome; simp at hsome
    | some a =>
      rw [hd] at hsome
      have hsome' : Crate.new a t c.path = c := by simpa using hsome
      have h1 : t = c.timestamp := congrArg Crate.timestamp hsome'
      have h2 : a = c.analysis := congrArg Crate.analysis hsome'
      subst h1
      subst h2
      exact ⟨ht, hsl, rfl⟩
  · rw [if_neg hsl] at hsome
    simp at hsome

theorem crate_mem_of_read_incremental_ok (fs : FileSystem) (roots : List PathBuf)
    (ts : TimestampMap) (cs : List Crate) (p : PathBuf) (t : Time) (a : Analysis)
    (h : Analysis.read_incremental fs roots ts = .ok cs)
    (ht : t ∈ occurrences fs roots p) (hsl : should_load ts p t = true)
    (ha : decodeAt fs p = some a) : Crate.new a t p ∈ cs := by
  have hm : Crate.new a t p ∈ expected_at fs ts roots p := by
    rw [expected_at]
    exact List.mem_filterMap.mpr ⟨t, ht, by simp [hsl, ha]⟩
  rw [← read_incremental_ok_filter fs roots ts cs p h] at hm
  exact (List.mem_filter.mp hm).1

theorem load_files_ok_entry (fs : FileSystem) (ts : TimestampMap) (root : PathBuf)
    (files : List Listing) (e : List Crate) (l : Listing)
    (h : load_files fs ts root files = .ok e) (hl : l ∈ files) :
    ∃ e1, load_entry fs ts root l = .ok e1 := by
  induction files generalizing e with
  | nil => cases hl
  | cons x xs ih =>
    rw [load_files] at h
    cases h1 : load_entry fs ts root x with
    | error err => rw [h1] at h; exact absurd h (by simp)
    | ok cs =>
      rw [h1] at h
      cases h2 : load_files fs ts root xs with
      | error err => rw [h2] at h; exact absurd h (by simp)
      | ok rest =>
        rcases List.mem_cons.mp hl with rfl | hmem
        · exact ⟨cs, h1⟩
        · exact ih rest h2 hmem

theorem iter_ok_root (fs : FileSystem) (roots : List PathBuf) (ts : TimestampMap)
    (cs : List Crate) (r : PathBuf)
    (h : Analysis.read_incremental fs roots ts = .ok cs) (hr : r ∈ roots) :
    ∃ e, load_root fs ts r = .ok e := by
  induction roots generalizing cs with
  | nil => cases hr
  | cons x xs ih =>
    rw [Analysis.read_incremental, iter_paths] at h
    cases h1 : load_root fs ts x with
    | error err => rw [h1] at h; exact absurd h (by simp)
    | ok e1 =>
      rw [h1] at h
      cases h2 : iter_paths (fun q => load_root fs ts q) xs with
      | error err => rw [h2] at h; exact absurd h (by simp)
      | ok e2 =>
        rcases List.mem_cons.mp hr with rfl | hmem
        · exact ⟨e1, h1⟩
        · exact ih e2 h2 hmem

theorem reads_ok_of_read_incremental_ok (fs : FileSystem) (roots : List PathBuf)
    (ts : TimestampMap) (cs : List Crate)
    (h : Analysis.read_incremental fs roots ts = .ok cs) :
    reads_ok fs ts roots := by
  intro r hr files hlist l hl t hk hsl
  obtain ⟨e, he⟩ := iter_ok_root fs roots ts cs r h hr
  rw [load_root, hlist] at he
  obtain ⟨e1, he1⟩ := load_files_ok_entry fs ts r files e l he hl
  exact load_entry_reads fs ts r l e1 he1 t hk hsl

theorem load_files_ok_of_reads (fs : FileSystem) (ts : TimestampMap) (root : PathBuf)
    (files : List Listing)
    (h : ∀ l ∈ files, ∀ t, l.kind = .file t →
      should_load ts (pushPath root l.name) t = true →
      ∃ buf, fs.readFile (pushPath root l.name) = .ok buf) :
    ∃ e, load_files fs ts root files = .ok e := by
  induction files with
  | nil => exact ⟨[], rfl⟩
  | cons l ls ih =>
    obtain ⟨e2, h2⟩ := ih (fun x hx => h x (List.mem_cons_of_mem _ hx))
    have h1 := load_entry_ok_of_reads fs ts root l
      (fun t hk hsl => h l (List.mem_cons_self l ls) t hk hsl)
    exact ⟨_, by rw [load_files, h1, h2]⟩

theorem read_incremental_ok_of_reads (fs : FileSystem) (roots : List PathBuf)
    (ts : TimestampMap) (h : reads_ok fs ts roots) :
    ∃ cs, Analysis.read_incremental fs roots ts = .ok cs := by
  induction roots with
  | nil => exact ⟨[], rfl⟩
  | cons r rs ih =>
    obtain ⟨cs2, h2⟩ := ih (fun q hq files => h q (List.mem_cons_of_mem _ hq) files)
    have hroot : ∃ e, load_root fs ts r = .ok e := by
      cases hl : fs.listing r with
      | error err => exact ⟨[], by rw [load_root, hl]⟩
      | ok files =>
        obtain ⟨e, he⟩ := load_files_ok_of_reads fs ts r files
          (h r (List.mem_cons_self r rs) files hl)
        exact ⟨e, by rw [load_root, hl]; exact he⟩
    obtain ⟨e1, h1⟩ := hroot
    refine ⟨e1 ++ cs2, ?_⟩
    rw [Analysis.read_incremental, iter_paths, h1]
    rw [Analysis.read_incremental] at h2
    rw [h2]

/-! The claims. -/

/-- C6: for every non-import definition kind, `name_space` returns exactly the
namespace the spec assigns: Enum, Tuple, Struct, Type (type-alias) and Trait
map to the type namespace, Function, Method, Mod, Local, Static, Const and
Field to the value namespace, and Macro to the macro namespace. -/
theorem name_space_table :
    name_space .Enum = .ok 't' ∧ name_space .Tuple = .ok 't' ∧
    name_space .Struct = .ok 't' ∧ name_space .TypeAlias = .ok 't' ∧
    name_space .Trait = .ok 't' ∧
    name_space .Function = .ok 'v' ∧ name_space .Method = .ok 'v' ∧
    name_space .Mod = .ok 'v' ∧ name_space .Local = .ok 'v' ∧
    name_space .Static = .ok 'v' ∧ name_space .Const = .ok 'v' ∧
    name_space .Field = .ok 'v' ∧
    name_space .Macro = .ok 'm' := by
  decide

/-- C7: invoking `name_space` on the Import kind is a panic (modelled by the
`Except.error` outcome, which aborts the enclosing computation), never an
ordinary return value; on every other kind `name_space` returns normally. -/
theorem name_space_import_panics :
    name_space .Import = .error .noNamespaceForImports ∧
    ∀ k : DefKind, k ≠ .Import → ∃ c, name_space k = .ok c := by
  refine ⟨rfl, ?_⟩
  intro k hk
  cases k <;> first
    | exact ⟨'t', rfl⟩
    | exact ⟨'v', rfl⟩
    | exact ⟨'m', rfl⟩
    | exact absurd rfl hk

/-- Witness for C7 at the Function kind. -/
theorem name_space_import_panics_witness :
    (DefKind.Function ≠ DefKind.Import) ∧ ∃ c, name_space .Function = .ok c :=
  ⟨by decide, name_space_import_panics.2 .Function (by decide)⟩

/-- C2: a path in the never-refresh state (`Some(None)` in the snapshot) is
never loaded: the result of `read_incremental` contains no crate for it,
regardless of observed modification times. -/
theorem never_refresh_never_loaded (fs : FileSystem) (roots : List PathBuf)
    (ts : TimestampMap) (cs : List Crate) (p : PathBuf)
    (hok : Analysis.read_incremental fs roots ts = .ok cs)
    (hts : tsGet ts p = some none) :
    ∀ c ∈ cs, c.path ≠ p := by
  intro c hc hp
  have h := (mem_read_incremental_ok fs roots ts cs c hok hc).2.1
  rw [hp] at h
  simp [should_load, hts] at h

/-- Witness for C2: root `r1` of the concrete filesystem with artifact `a`
pinned never-refresh yields no crate for it (nor any other). -/
theorem never_refresh_never_loaded_witness :
    Analysis.read_incremental fsW [["r1"]] [(["r1", "a"], none)] = .ok [] ∧
    tsGet [(["r1", "a"], none)] ["r1", "a"] = some none ∧
    ∀ c ∈ ([] : List Crate), c.path ≠ ["r1", "a"] :=
  ⟨by decide, by decide,
    never_refresh_never_loaded fsW [["r1"]] [(["r1", "a"], none)] [] ["r1", "a"]
      (by decide) (by decide)⟩

/-- C1: for a path with known timestamp `T`, the loader loads iff the observed
time is strictly newer than `T`: every crate for `p` in the result has
timestamp strictly above `T` and carries what `p` decodes to; every occurrence
of `p` strictly newer than `T` that decodes successfully yields its crate in
the result; and when every occurrence of `p` is at most `T`, the result
contains no crate for `p`. -/
theorem known_timestamp_policy (fs : FileSystem) (roots : List PathBuf)
    (ts : TimestampMap) (cs : List Crate) (p : PathBuf) (T : Time)
    (hok : Analysis.read_incremental fs roots ts = .ok cs)
    (hts : tsGet ts p = some (some T)) :
    (∀ c ∈ cs, c.path = p → T < c.timestamp ∧ decodeAt fs p = some c.analysis) ∧
    (∀ t ∈ occurrences fs roots p, T < t → ∀ a, decodeAt fs p = some a →
      Crate.new a t p ∈ cs) ∧
    ((∀ t ∈ occurrences fs roots p, t ≤ T) → ∀ c ∈ cs, c.path ≠ p) := by
  refine ⟨?_, ?_, ?_⟩
  · intro c hc hp
    obtain ⟨hocc, hsl, hdec⟩ := mem_read_incremental_ok fs roots ts cs c hok hc
    rw [hp] at hsl hdec
    refine ⟨?_, hdec⟩
    simpa [should_load, hts] using hsl
  · intro t ht hT a ha
    exact crate_mem_of_read_incremental_ok fs roots ts cs p t a hok ht
      (by simp [should_load, hts, hT]) ha
  · intro hall c hc hp
    obtain ⟨hocc, hsl, _⟩ := mem_read_incremental_ok fs roots ts cs c hok hc
    rw [hp] at hocc hsl
    have h1 : T < c.timestamp := by simpa [should_load, hts] using hsl
    have h2 : c.timestamp ≤ T := hall _ hocc
    exact absurd h1 (Nat.not_lt.mpr h2)

/-- Witness for C1: artifact `a` (observed 10, known 5) is loaded, artifact `b`
(observed 10, known 20) is not. -/
theorem known_timestamp_policy_witness :
    Analysis.read_incremental fsW [["r1"]]
        [(["r1", "a"], some 5), (["r1", "b"], some 20)] =
      .ok [Crate.new A0 10 ["r1", "a"]] ∧
    tsGet [(["r1", "a"], some 5), (["r1", "b"], some 20)] ["r1", "a"] = some (some 5) ∧
    ((∀ c ∈ [Crate.new A0 10 ["r1", "a"]], c.path = ["r1", "a"] →
        5 < c.timestamp ∧ decodeAt fsW ["r1", "a"] = some c.analysis) ∧
     (∀ t ∈ occurrences fsW [["r1"]] ["r1", "a"], 5 < t →
        ∀ a, decodeAt fsW ["r1", "a"] = some a →
          Crate.new a t ["r1", "a"] ∈ [Crate.new A0 10 ["r1", "a"]]) ∧
     ((∀ t ∈ occurrences fsW [["r1"]] ["r1", "a"], t ≤ 5) →
        ∀ c ∈ [Crate.new A0 10 ["r1", "a"]], c.path ≠ ["r1", "a"])) :=
  ⟨by decide, by decide,
    known_timestamp_policy fsW [["r1"]]
      [(["r1", "a"], some 5), (["r1", "b"], some 20)]
      [Crate.new A0 10 ["r1", "a"]] ["r1", "a"] 5 (by decide) (by decide)⟩

/-- C3: a path absent from the snapshot (never seen) is loaded unconditionally;
with exactly one file entry resolving to it and a successful decode, the
result contains exactly one crate for it. -/
theorem never_seen_loads (fs : FileSystem) (roots : List PathBuf)
    (ts : TimestampMap) (cs : List Crate) (p : PathBuf) (t : Time) (a : Analysis)
    (hok : Analysis.read_incremental fs roots ts = .ok cs)
    (hts : tsGet ts p = none)
    (hocc : occurrences fs roots p = [t])
    (ha : decodeAt fs p = some a) :
    cs.filter (fun c => decide (c.path = p)) = [Crate.new a t p] := by
  rw [read_incremental_ok_filter fs roots ts cs p hok, expected_at, hocc]
  simp [should_load, hts, ha]

/-- Witness for C3: never-seen artifact `a` of root `r1` is loaded exactly
once. -/
theorem never_seen_loads_witness :
    Analysis.read_incremental fsW [["r1"]] [] = .ok [Crate.new A0 10 ["r1", "a"]] ∧
    tsGet [] ["r1", "a"] = none ∧
    occurrences fsW [["r1"]] ["r1", "a"] = [10] ∧
    decodeAt fsW ["r1", "a"] = some A0 ∧
    (List.filter (fun c => decide (c.path = ["r1", "a"])) [Crate.new A0 10 ["r1", "a"]]) =
      [Crate.new A0 10 ["r1", "a"]] :=
  ⟨by decide, by decide, by decide, by decide,
    never_seen_loads fsW [["r1"]] [] [Crate.new A0 10 ["r1", "a"]] ["r1", "a"] 10 A0
      (by decide) (by decide) (by decide) (by decide)⟩

/-- C5: a failed directory listing contributes an empty result for that root
and leaves every other root's contribution unchanged. -/
theorem listing_failure_scoped (fs : FileSystem) (ts : TimestampMap)
    (pre post : List PathBuf) (r : PathBuf) (h : fs.listing r = .error ()) :
    Analysis.read_incremental fs (pre ++ r :: post) ts =
    Analysis.read_incremental fs (pre ++ post) ts := by
  induction pre with
  | nil =>
    simp only [List.nil_append, Analysis.read_incremental]
    rw [iter_paths]
    rw [show load_root fs ts r = .ok [] from by rw [load_root, h]]
    cases h2 : iter_paths (fun q => load_root fs ts q) post with
    | error err => simp
    | ok rest => simp
  | cons x xs ih =>
    simp only [List.cons_append, Analysis.read_incremental] at ih ⊢
    rw [iter_paths, iter_paths, ih]

/-- Witness for C5: the unlistable root `rbad` contributes nothing and root
`r1` is unaffected. -/
theorem listing_failure_scoped_witness :
    fsW.listing ["rbad"] = .error () ∧
    Analysis.read_incremental fsW ([] ++ ["rbad"] :: [["r1"]]) [] =
      Analysis.read_incremental fsW ([] ++ [["r1"]]) [] :=
  ⟨by decide, listing_failure_scoped fsW [] [] [["r1"]] ["rbad"] (by decide)⟩

/-- C4 (refuting evaluation): an unreadable artifact file is not skipped — the
unwrap in `read_crate_data` panics, aborting the whole `read_incremental` call,
so the decodable artifact of the later root is dropped too, instead of the
result holding one crate per decodable stale-or-unseen artifact. -/
theorem unreadable_artifact_panics :
    Analysis.read_incremental fsW [["r3"], ["r1"]] [] = .error .unwrapFailed := by
  decide

theorem load_entry_ext (fs : FileSystem) (ts ts' : TimestampMap) (root : PathBuf)
    (l : Listing) (h : ∀ p, tsGet ts p = tsGet ts' p) :
    load_entry fs ts root l = load_entry fs ts' root l := by
  rcases l with ⟨name, kind⟩
  cases kind with
  | other => rfl
  | file t =>
    simp only [load_entry]
    rw [h (pushPath root name)]

theorem load_files_ext (fs : FileSystem) (ts ts' : TimestampMap) (root : PathBuf)
    (files : List Listing) (h : ∀ p, tsGet ts p = tsGet ts' p) :
    load_files fs ts root files = load_files fs ts' root files := by
  induction files with
  | nil => rfl
  | cons l ls ih => rw [load_files, load_files, load_entry_ext fs ts ts' root l h, ih]

theorem load_root_ext (fs : FileSystem) (ts ts' : TimestampMap) (root : PathBuf)
    (h : ∀ p, tsGet ts p = tsGet ts' p) :
    load_root fs ts root = load_root fs ts' root := by
  rw [load_root, load_root]
  cases hl : fs.listing root with
  | error err => rfl
  | ok files => exact load_files_ext fs ts ts' root files h

/-- C9: the loader consumes the snapshot only through `get` lookups and never
mutates it: two snapshots that agree on every lookup produce identical results,
so the map's contents, as observed through every lookup the loader performs,
are the same before and after the call. -/
theorem snapshot_immutable (fs : FileSystem) (roots : List PathBuf)
    (ts ts' : TimestampMap) (h : ∀ p, tsGet ts p = tsGet ts' p) :
    Analysis.read_incremental fs roots ts = Analysis.read_incremental fs roots ts' := by
  induction roots with
  | nil => rfl
  | cons r rs ih =>
    simp only [Analysis.read_incremental] at ih ⊢
    rw [iter_paths, iter_paths, load_root_ext fs ts ts' r h, ih]

/-- Witness for C9: two different association lists with the same lookups give
the same result. -/
theorem snapshot_immutable_witness :
    (∀ p, tsGet [(["r1", "a"], some 1), (["r1", "a"], some 2)] p =
      tsGet [(["r1", "a"], some 1)] p) ∧
    Analysis.read_incremental fsW [["r1"]] [(["r1", "a"], some 1), (["r1", "a"], some 2)] =
      Analysis.read_incremental fsW [["r1"]] [(["r1", "a"], some 1)] := by
  have h : ∀ p, tsGet [(["r1", "a"], some 1), (["r1", "a"], some 2)] p =
      tsGet [(["r1", "a"], some 1)] p := by
    intro p
    by_cases hp : (["r1", "a"] : PathBuf) = p <;> simp [tsGet, hp]
  exact ⟨h, snapshot_immutable fsW [["r1"]] _ _ h⟩

theorem load_entry_empty_spec (fs : FileSystem) (root : PathBuf) (l : Listing) :
    load_entry fs [] root l = read_spec_entry fs root l := by
  rcases l with ⟨name, kind⟩
  cases kind with
  | other => rfl
  | file t => simp only [load_entry, read_spec_entry, tsGet]

theorem load_files_empty_spec (fs : FileSystem) (root : PathBuf) (files : List Listing) :
    load_files fs [] root files = read_spec_files fs root files := by
  induction files with
  | nil => rfl
  | cons l ls ih =>
    rw [load_files, read_spec_files, load_entry_empty_spec fs root l, ih]

theorem load_root_empty_spec (fs : FileSystem) (root : PathBuf) :
    load_root fs [] root = read_spec_root fs root := by
  rw [load_root, read_spec_root]
  cases hl : fs.listing root with
  | error err => rfl
  | ok files => exact load_files_empty_spec fs root files

/-- C10: `Analysis::read` is `read_incremental` with the empty snapshot, under
which every file entry is never-seen, so it coincides with the spec-side
unconditional loader that loads every decodable artifact in every root. -/
theorem read_refines (fs : FileSystem) (roots : List PathBuf) :
    Analysis.read fs roots = Analysis.read_incremental fs roots [] ∧
    Analysis.read fs roots = read_spec fs roots := by
  refine ⟨rfl, ?_⟩
  induction roots with
  | nil => rfl
  | cons r rs ih =>
    simp only [Analysis.read, Analysis.read_incremental] at ih ⊢
    rw [iter_paths, read_spec, load_root_empty_spec fs r, ih]

/-- C8: with an unchanged filesystem and the snapshot updated after a first
successful call (every loaded path's state set to its observed timestamp,
every other path's state unchanged), a second call returns the empty result;
any path still never seen in the updated snapshot is still a load candidate
(the policy loads it), but with the filesystem unchanged its decode fails
exactly as in the first call, so it contributes no crate. -/
theorem idempotence (fs : FileSystem) (roots : List PathBuf)
    (ts ts' : TimestampMap) (cs : List Crate)
    (hok : Analysis.read_incremental fs roots ts = .ok cs)
    (hupd : ∀ c ∈ cs, tsGet ts' c.path = some (some c.timestamp))
    (hkeep : ∀ p, (∀ c ∈ cs, c.path ≠ p) → tsGet ts' p = tsGet ts p) :
    Analysis.read_incremental fs roots ts' = .ok [] ∧
    (∀ p t, tsGet ts' p = none → should_load ts' p t = true) := by
  have himp : ∀ p t, should_load ts' p t = true → should_load ts p t = true := by
    intro p t hsl'
    by_cases hl : ∃ c ∈ cs, c.path = p
    · obtain ⟨c, hc, hcp⟩ := hl
      have hupdc := hupd c hc
      rw [hcp] at hupdc
      have hslc := (mem_read_incremental_ok fs roots ts cs c hok hc).2.1
      rw [hcp] at hslc
      have hct : c.timestamp < t := by simpa [should_load, hupdc] using hsl'
      cases hts : tsGet ts p with
      | none => simp [should_load, hts]
      | some o =>
        cases o with
        | none => simp [should_load, hts] at hslc
        | some T =>
          have hTc : T < c.timestamp := by simpa [should_load, hts] using hslc
          have hTt : T < t := lt_trans hTc hct
          simp [should_load, hts, hTt]
    · push_neg at hl
      have hkp := hkeep p hl
      have heq : should_load ts' p t = should_load ts p t := by
        simp only [should_load]
        rw [hkp]
      rwa [heq] at hsl'
  have hreads := reads_ok_of_read_incremental_ok fs roots ts cs hok
  have hreads' : reads_ok fs ts' roots :=
    fun r hr files hlist l hl t hk hsl => hreads r hr files hlist l hl t hk (himp _ _ hsl)
  obtain ⟨cs', hok'⟩ := read_incremental_ok_of_reads fs roots ts' hreads'
  have hempty : cs' = [] := by
    rcases cs' with _ | ⟨c, rest⟩
    · rfl
    · exfalso
      have hc : c ∈ c :: rest := List.mem_cons_self c rest
      obtain ⟨hocc, hsl', hdec⟩ := mem_read_incremental_ok fs roots ts' (c :: rest) c hok' hc
      have hsl := himp _ _ hsl'
      have hmem : Crate.new c.analysis c.timestamp c.path ∈ cs :=
        crate_mem_of_read_incremental_ok fs roots ts cs c.path c.timestamp c.analysis hok
          hocc hsl hdec
      have hupdc := hupd _ hmem
      simp [Crate.new] at hupdc
      simp [should_load, hupdc] at hsl'
  rw [hempty] at hok'
  refine ⟨hok', ?_⟩
  intro p t hnone
  simp [should_load, hnone]

/-- Witness for C8: after loading the never-seen artifact `a` at time 10 and
updating the snapshot accordingly, a second call over the unchanged filesystem
returns the empty result. -/
theorem idempotence_witness :
    Analysis.read_incremental fsW [["r1"]] [] = .ok [Crate.new A0 10 ["r1", "a"]] ∧
    (∀ c ∈ [Crate.new A0 10 ["r1", "a"]],
      tsGet [(["r1", "a"], some 10)] c.path = some (some c.timestamp)) ∧
    Analysis.read_incremental fsW [["r1"]] [(["r1", "a"], some 10)] = .ok [] := by
  have hkeep : ∀ p, (∀ c ∈ [Crate.new A0 10 ["r1", "a"]], c.path ≠ p) →
      tsGet [(["r1", "a"], some 10)] p = tsGet [] p := by
    intro p hp
    have h : (["r1", "a"] : PathBuf) ≠ p :=
      hp (Crate.new A0 10 ["r1", "a"]) (List.mem_singleton.mpr rfl)
    simp [tsGet, h]
  exact ⟨by decide, by decide,
    (idempotence fsW [["r1"]] [] [(["r1", "a"], some 10)] [Crate.new A0 10 ["r1", "a"]]
      (by decide) (by decide) hkeep).1⟩

end Raw
